import Mathlib

/-!
Verification of the access-control and command-dispatch core of `mcp-cmdex`,
a Deno-based MCP server.  The definitions below are a shallow embedding of:

* `src/config.ts` (`readConfig`, the `Config` type),
* `src/command-executor.ts` (`isCommandAllowed`, `defaultExecuteCommand`,
  `executeCommand` with its whitespace-based command-line parsing),
* `src/mcp-cmdex.ts` / the refactored server file (`validatePath`, the static
  `ALLOWED_COMMANDS` set).

External effects (file reads, `Deno.realPath`, process spawning) are made
explicit: configuration loading is a function of a `ConfigStore` value, the
filesystem is an `FsWorld` record carrying the `realPath` resolution function,
and process execution is a function argument, exactly as in the source where
`readConfigFn` / `executeCommandFn` are injectable parameters.
-/

deriving instance DecidableEq for Except

namespace Cmdex

/-! ### JavaScript string primitives used by the command parser -/

/-- The JavaScript whitespace class `\s` (as used in `split(/\s+/)`) and the
`String.prototype.trim` character set: space, tab, LF, VT, FF, CR, NBSP,
Ogham space mark, the U+2000–U+200A range, line/paragraph separators, narrow
NBSP, medium mathematical space, ideographic space and the BOM. -/
def wsChar (c : Char) : Bool :=
  c == ' ' || c == '\t' || c == '\n' || c == '\x0b' || c == '\x0c' || c == '\r' ||
  c == '\u00A0' || c == '\u1680' ||
  (0x2000 ≤ c.toNat && c.toNat ≤ 0x200A) ||
  c == '\u2028' || c == '\u2029' || c == '\u202F' || c == '\u205F' ||
  c == '\u3000' || c == '\uFEFF'

/-- Splitting a character list at every whitespace character, keeping the
(possibly empty) segments between consecutive separators.  Composed with the
filter that drops empty segments (as `executeCommand` does with
`.filter(part => part.length > 0)`), this coincides with JavaScript
`String.prototype.split(/\s+/)` followed by the same filter. -/
def splitWS : List Char → List (List Char)
  | [] => [[]]
  | c :: cs =>
    match splitWS cs, wsChar c with
    | r, true => [] :: r
    | [], false => [[c]]
    | t :: ts, false => (c :: t) :: ts

/-- JavaScript `String.prototype.trim` on a character list: drop leading and
trailing whitespace. -/
def jsTrim (l : List Char) : List Char :=
  ((l.dropWhile wsChar).reverse.dropWhile wsChar).reverse

/-- Worker for `wordsOf`: scans the characters left to right, collecting the
current (reversed) in-progress token in `acc` and emitting it whenever a
whitespace character or the end of the input is reached. -/
def wordsAux : List Char → List Char → List (List Char)
  | [], acc => if acc.isEmpty then [] else [acc.reverse]
  | c :: cs, acc =>
    if wsChar c then
      if acc.isEmpty then wordsAux cs [] else acc.reverse :: wordsAux cs []
    else wordsAux cs (c :: acc)

/-- Specification-side tokenizer: the maximal runs of non-whitespace
characters of a string, in order ("trim, then split on runs of whitespace").
Used to state what the source's trim/split/filter pipeline computes. -/
def wordsOf (l : List Char) : List (List Char) :=
  wordsAux l []

/-! ### Configuration (`src/config.ts`) -/

/-- The `Config` type of `src/config.ts`: `allowedDirectories` is required,
`allowedCommands` (a category-name-keyed map of command-name lists, modelled
as an association list preserving `Object.values` order) and the LLM options
are optional. -/
structure Config where
  allowedDirectories : List String
  allowedCommands : Option (List (String × List String)) := none
  llmEnabled : Option Bool := none
deriving DecidableEq, Repr

/-- The state of the external TOML configuration file backing `readConfig`:
absent (read raises `Deno.errors.NotFound`), unreadable (read raises some
other error), malformed (read succeeds, `toml.parse` throws), or present with
parsed content. -/
inductive ConfigStore where
  | absent
  | unreadable
  | malformed
  | content (c : Config)
deriving DecidableEq, Repr

/-- Failures that `readConfig` propagates to its caller. -/
inductive ConfigReadError where
  | readFailed
  | parseFailed
deriving DecidableEq, Repr

/-- Model of `readConfig` from `src/config.ts`: a `Deno.errors.NotFound` from
`Deno.readTextFile` is caught and converted to the default configuration
`{ allowedDirectories: [] }` (with `allowedCommands` left undefined); every
other read error and every `toml.parse` failure is rethrown. -/
def readConfig : ConfigStore → Except ConfigReadError Config
  | .absent => .ok { allowedDirectories := [] }
  | .unreadable => .error .readFailed
  | .malformed => .error .parseFailed
  | .content c => .ok c

/-! ### Command gate (`src/command-executor.ts`) -/

/-- The result of normalizing the caller-supplied `commandName` plus explicit
`args` into the (command, argument-list) pair actually executed
(`actualCommand` / `actualArgs` in `executeCommand`). -/
structure ParsedInvocation where
  command : String
  args : List String
deriving DecidableEq, Repr

/-- The command-line parsing step of `executeCommand`
(`src/command-executor.ts` lines 84–96): when `commandName` contains a space
character (`commandName.includes(' ')`), the name is trimmed, split on runs of
whitespace (`trimmedCommand.split(/\s+/).filter(part => part.length > 0)`),
the first token becomes the effective command and the remaining tokens are
prepended to the explicit `args`; otherwise `commandName` and `args` are used
unchanged.  `parts[0]` of an empty `parts` array is JavaScript `undefined`,
modelled here as the empty string (which is not a valid command name). -/
def parseCommand (commandName : String) (args : List String) : ParsedInvocation :=
  if ' ' ∈ commandName.toList then
    let parts := ((splitWS (jsTrim commandName.toList)).filter
      (fun t => !t.isEmpty)).map (fun t => (⟨t⟩ : String))
    { command := parts.headD "", args := parts.tail ++ args }
  else
    { command := commandName, args := args }

/-- Model of `isCommandAllowed` from `src/command-executor.ts`: the command is allowed
when it belongs to the caller-supplied static set, and otherwise when some
category of the freshly loaded configuration's `allowedCommands`
(`Object.values(config.allowedCommands || {})`) contains it; a configuration
read failure is caught and yields `false`. -/
def isCommandAllowed (command : String) (allowedCommands : List String)
    (store : ConfigStore) : Bool :=
  if command ∈ allowedCommands then true
  else
    match readConfig store with
    | .error _ => false
    | .ok config =>
      ((config.allowedCommands.getD []).map Prod.snd).any
        (fun commands => command ∈ commands)

/-- The error values raised by `executeCommand`, mirroring the two `McpError`
codes used in the source: `InvalidRequest` for a command that is not allowed
and `InternalError` for a failure of the execution function. -/
inductive McpErr where
  | invalidRequest (msg : String)
  | internalError (msg : String)
deriving DecidableEq, Repr

/-- The denial message of `executeCommand` for a command outside the
effective allowlist (the original, unparsed `commandName` is interpolated). -/
def deniedMessage (commandName : String) : String :=
  "コマンド \x27" ++ commandName ++ "\x27 は許可されていません"

/-- The authorization slice of `executeCommand` (`src/command-executor.ts`
lines 84–105): parse the command line, then check the effective command
against the static set united with the configuration's command categories;
a disallowed command raises `McpError(InvalidRequest, ...)`, an allowed one
yields the parsed invocation handed to the execution function. -/
def authorize (commandName : String) (args : List String)
    (allowedCommands : List String) (store : ConfigStore) :
    Except McpErr ParsedInvocation :=
  let p := parseCommand commandName args
  if isCommandAllowed p.command allowedCommands store then .ok p
  else .error (.invalidRequest (deniedMessage commandName))

/-- Captured output of a completed command (`CommandExecutionResult`). -/
structure CommandExecutionResult where
  output : String
  error : String
deriving DecidableEq, Repr

/-- Outcome of `Deno.Command(...).output()` for a given executable and
argument list: either spawning fails (the promise rejects, e.g. binary not
found or permission denied) or the process runs to completion with an exit
code and captured stdout/stderr.  Per the Deno API, `output()` resolves —
it does not reject — when the process exits with a non-zero code. -/
inductive ProcOutcome where
  | spawnError (msg : String)
  | completed (code : Nat) (stdout : String) (stderr : String)
deriving DecidableEq, Repr

/-- Model of `defaultExecuteCommand` from `src/command-executor.ts`: on Windows the
child process is `cmd.exe` with `/c <command> <args...>`; elsewhere the
command itself is spawned with `args` verbatim.  Both output streams are
decoded and returned; the exit code of a completed process is discarded.
The ambient process behaviour is the `world` function. -/
def defaultExecuteCommand (world : String → List String → ProcOutcome)
    (command : String) (args : List String) (onWindows : Bool) :
    Except String CommandExecutionResult :=
  let exe := if onWindows then "cmd.exe" else command
  let procArgs := if onWindows then "/c" :: command :: args else args
  match world exe procArgs with
  | .spawnError msg => .error msg
  | .completed _ stdout stderr => .ok { output := stdout, error := stderr }

/-- Model of `executeCommand` from `src/command-executor.ts`: parse, check the
allowlist (throwing `InvalidRequest` on denial, before the execution function
is ever consulted), then run the injected execution function once, wrapping
any failure it raises into `McpError(InternalError, "コマンド実行エラー: " + msg)`. -/
def executeCommand (commandName : String) (args : List String)
    (allowedCommands : List String) (store : ConfigStore) (onWindows : Bool)
    (execFn : String → List String → Bool → Except String CommandExecutionResult) :
    Except McpErr CommandExecutionResult :=
  match authorize commandName args allowedCommands store with
  | .error e => .error e
  | .ok p =>
    match execFn p.command p.args onWindows with
    | .ok r => .ok r
    | .error msg => .error (.internalError ("コマンド実行エラー: " ++ msg))

/-- The static build-time command allowlist `ALLOWED_COMMANDS` of the server
(duplicates such as `find` and `sort`, present twice in the source literal,
are harmless: the JavaScript `Set` deduplicates and only membership is ever
queried). -/
def ALLOWED_COMMANDS : List String := [
  "dir", "copy", "xcopy", "robocopy", "move", "del", "rd", "md", "type", "more",
  "find", "findstr", "sort", "fc", "comp", "tree", "where", "whoami", "tasklist",
  "taskkill", "systeminfo", "hostname", "ipconfig", "netstat", "net", "ping",
  "tracert", "nslookup", "pathping", "route", "arp", "attrib", "chcp", "cipher",
  "clip", "compact", "expand", "forfiles", "fsutil", "ftype", "reg", "sc",
  "schtasks", "shutdown", "timeout", "title", "ver", "vol", "wmic", "powershell",
  "pwsh", "cmd",
  "bash", "sh", "zsh", "fish", "ksh", "csh", "tcsh", "dash", "ash",
  "ls", "cp", "mv", "rm", "mkdir", "rmdir", "cat", "head", "tail", "grep", "find",
  "sort", "uniq", "wc", "tr", "cut", "paste", "join", "split", "basename",
  "dirname", "pwd", "date", "touch", "chmod", "chown", "df", "du", "ln", "tar",
  "gzip", "gunzip", "bzip2", "bunzip2", "xz", "unxz", "zip", "unzip",
  "awk", "gawk", "mawk", "nawk",
  "sed", "gsed", "ssed",
  "jq", "yq", "fx",
  "csvkit", "xsv", "tsv-utils",
  "pandoc", "asciidoctor",
  "sqlite3", "sqlite",
  "mysql", "mysqldump", "mysqlimport",
  "psql", "pg_dump", "pg_restore",
  "mongosh", "mongoexport", "mongoimport",
  "redis-cli",
  "duckdb",
  "influx",
  "gcc", "g++", "clang", "clang++", "rustc", "python", "python3", "node", "deno",
  "java", "javac", "kotlin", "kotlinc", "go", "gofmt", "ruby", "perl", "php",
  "ghc", "stack", "cabal",
  "scala", "scalac",
  "dotnet",
  "tsc", "esbuild", "swc",
  "npm", "yarn", "pnpm", "pip", "pip3", "cargo", "gem", "composer", "maven",
  "gradle", "sbt", "nuget", "vcpkg", "conan",
  "make", "cmake", "ninja", "rake", "grunt", "gulp", "webpack", "rollup", "vite",
  "bazel", "buck",
  "jest", "pytest", "rspec", "mocha", "karma", "cypress", "playwright",
  "git", "gh",
  "curl", "wget", "httpie",
  "docker", "podman",
  "terraform", "ansible",
  "protoc", "grpcurl",
  "shellcheck", "shfmt",
  "prettier", "eslint", "stylelint",
  "graphql", "hasura"]

/-- The flattened union of the command names granted by the configuration's
`allowedCommands` categories (category names are cosmetic). -/
def policyCommands (cfg : Config) : List String :=
  ((cfg.allowedCommands.getD []).map Prod.snd).flatten

/-! ### POSIX path primitives (`@std/path` as used by `validatePath`) -/

/-- Model of `path.isAbsolute` on the POSIX target: the path starts with `/`. -/
def pathIsAbsolute (p : String) : Bool :=
  match p.toList with
  | '/' :: _ => true
  | _ => false

/-- Splitting a character list at every `/`, keeping empty segments. -/
def splitSlash : List Char → List (List Char)
  | [] => [[]]
  | c :: cs =>
    match splitSlash cs, c == '/' with
    | r, true => [] :: r
    | [], false => [[c]]
    | t :: ts, false => (c :: t) :: ts

/-- The component-stack pass of `path.normalize`: empty and `.` components
are dropped, `..` pops the previous component (kept literally at the front of
a relative path, dropped at the root of an absolute one).  The stack is built
in reverse. -/
def normStack (isAbs : Bool) : List (List Char) → List (List Char)
  | [] => []
  | comp :: rest =>
    let acc := normStack isAbs rest
    if comp.isEmpty || comp == ['.'] then acc
    else if comp == ['.', '.'] then
      match acc with
      | [] => if isAbs then [] else [['.', '.']]
      | h :: t => if h == ['.', '.'] then comp :: acc else t
    else comp :: acc

/-- Model of `path.normalize` for POSIX paths: collapse repeated separators, resolve
`.` and `..` components, preserve a trailing separator when a non-empty
result remains, return `.` for an empty relative result and `/` for an empty
absolute one. -/
def normalizePath (p : String) : String :=
  if p.isEmpty then "." else
  let l := p.toList
  let isAbs := pathIsAbsolute p
  let hasTrail := l.getLast? == some '/'
  let stack := normStack isAbs (splitSlash l).reverse
  let core := (List.intercalate ['/'] stack.reverse).asString
  let base := if isAbs then "/" ++ core else if core.isEmpty then "." else core
  if hasTrail && !core.isEmpty then base ++ "/" else base

/-- Model of `path.resolve(cwd, p)` for an absolute working directory: join and
normalize (only ever applied to relative `p` in `validatePath`). -/
def resolvePath (cwd p : String) : String :=
  normalizePath (cwd ++ "/" ++ p)

/-- Model of `path.dirname` for POSIX paths: strip any trailing separators, then the
final component and its separators; `/` for root-level entries, `.` when no
separator remains. -/
def dirnamePath (p : String) : String :=
  let r := p.toList.reverse.dropWhile (fun c => c == '/')
  let r2 := (r.dropWhile (fun c => c != '/')).dropWhile (fun c => c == '/')
  if r2.isEmpty then
    if pathIsAbsolute p then "/" else "."
  else
    r2.reverse.asString

/-- The allowed-root test of `validatePath`:
`config.allowedDirectories.some((dir) => checked.startsWith(dir))` — a plain
string-prefix test. -/
def insideAllowedDirs (dirs : List String) (checked : String) : Bool :=
  dirs.any (fun dir => dir.toList.isPrefixOf checked.toList)

/-! ### Path sandbox (`validatePath` in `src/mcp-cmdex.ts`) -/

/-- The filesystem environment visible to `validatePath`: the process working
directory and `Deno.realPath` (`none` models a rejection — most commonly the
path does not exist). -/
structure FsWorld where
  cwd : String
  realPath : String → Option String

/-- The failures `validatePath` can propagate to its caller.  Note that the
source has a fourth, unreachable-in-effect denial (symlink target outside the
sandbox): that `throw` sits inside the `try` block whose own `catch` runs the
parent-directory fallback, so it never escapes `validatePath`. -/
inductive PathError where
  | configReadFailed
  | outsideAllowedRoot (p : String) (dirs : List String)
  | parentDirectoryMissing (parent : String)
deriving DecidableEq, Repr

/-- The requested path made absolute, as in `validatePath`:
`path.isAbsolute(requestedPath) ? requestedPath : path.resolve(Deno.cwd(), requestedPath)`. -/
def absoluteOf (w : FsWorld) (requestedPath : String) : String :=
  if pathIsAbsolute requestedPath then requestedPath
  else resolvePath w.cwd requestedPath

/-- Model of `validatePath` from `src/mcp-cmdex.ts` (lines 48–103; the refactored
server file carries an identical copy).  Control flow is translated
throw-for-throw:

1. a `readConfig` failure is caught and rethrown (modelled as
   `configReadFailed`) — the check never proceeds;
2. the lexical (normalized) path must have some allowed directory as a string
   prefix, else `outsideAllowedRoot` is thrown;
3. the real path is resolved inside a `try`: a resolution failure **or** the
   denial thrown when the resolved path lies outside every allowed directory
   (both modelled as `Except.error ()` of the `tryReal` block) are caught by
   the same `catch`, which falls back to resolving the parent directory;
   a successful, in-sandbox resolution returns the real path;
4. in the fallback, a parent-resolution failure or the parent-outside-sandbox
   denial (the inner `try`'s `Except.error ()`) are both caught by the inner
   bare `catch` and rethrown as `parentDirectoryMissing`; otherwise the
   original absolute path is returned. -/
def validatePath (w : FsWorld) (store : ConfigStore) (requestedPath : String) :
    Except PathError String :=
  match readConfig store with
  | .error _ => .error .configReadFailed
  | .ok config =>
    let absolute := absoluteOf w requestedPath
    let normalized := normalizePath absolute
    if !insideAllowedDirs config.allowedDirectories normalized then
      .error (.outsideAllowedRoot absolute config.allowedDirectories)
    else
      let tryReal : Except Unit String :=
        match w.realPath absolute with
        | none => .error ()
        | some realPath =>
          let normalizedReal := normalizePath realPath
          if !insideAllowedDirs config.allowedDirectories normalizedReal then
            .error ()
          else .ok realPath
      match tryReal with
      | .ok rp => .ok rp
      | .error _ =>
        let parentDir := dirnamePath absolute
        let tryParent : Except Unit String :=
          match w.realPath parentDir with
          | none => .error ()
          | some realParent =>
            let normalizedParent := normalizePath realParent
            if !insideAllowedDirs config.allowedDirectories normalizedParent then
              .error ()
            else .ok absolute
        match tryParent with
        | .ok a => .ok a
        | .error _ => .error (.parentDirectoryMissing parentDir)

/-! ### Tokenizer lemmas: the trim/split/filter pipeline computes the
maximal whitespace-separated runs -/

theorem splitWS_ne_nil (l : List Char) : splitWS l ≠ [] := by
  induction l with
  | nil => simp [splitWS]
  | cons c cs ih =>
    simp only [splitWS]
    rcases h : splitWS cs with _ | ⟨t, ts⟩
    · exact absurd h ih
    · cases hws : wsChar c <;> simp

theorem splitWS_cons_ws (c : Char) (cs : List Char) (h : wsChar c = true) :
    splitWS (c :: cs) = [] :: splitWS cs := by
  simp only [splitWS]
  rcases hs : splitWS cs with _ | ⟨t, ts⟩
  · exact absurd hs (splitWS_ne_nil cs)
  · rw [h]

theorem splitWS_cons_nonws (c : Char) (cs : List Char) (h : wsChar c = false)
    (t : List Char) (ts : List (List Char)) (hs : splitWS cs = t :: ts) :
    splitWS (c :: cs) = (c :: t) :: ts := by
  simp only [splitWS]
  rw [hs, h]

/-- The continuation of `splitWS` after the first segment. -/
def splitTail (l : List Char) : List (List Char) :=
  match l.dropWhile (fun d => !wsChar d) with
  | [] => []
  | _ :: rest => splitWS rest

theorem splitWS_eq_takeWhile_cons (l : List Char) :
    splitWS l = l.takeWhile (fun d => !wsChar d) :: splitTail l := by
  induction l with
  | nil => simp [splitWS, splitTail]
  | cons c cs ih =>
    cases hws : wsChar c with
    | true =>
      rw [splitWS_cons_ws c cs hws]
      have h1 : (c :: cs).takeWhile (fun d => !wsChar d) = [] := by
        simp [List.takeWhile_cons, hws]
      have h2 : splitTail (c :: cs) = splitWS cs := by
        unfold splitTail
        simp [List.dropWhile_cons, hws]
      rw [h1, h2]
    | false =>
      rcases hsp : splitWS cs with _ | ⟨t, ts⟩
      · exact absurd hsp (splitWS_ne_nil cs)
      · rw [splitWS_cons_nonws c cs hws t ts hsp]
        have h1 : (c :: cs).takeWhile (fun d => !wsChar d) =
            c :: cs.takeWhile (fun d => !wsChar d) := by
          simp [List.takeWhile_cons, hws]
        have h2 : splitTail (c :: cs) = splitTail cs := by
          unfold splitTail
          simp [List.dropWhile_cons, hws]
        rw [h1, h2]
        rw [hsp] at ih
        have ht : t = cs.takeWhile (fun d => !wsChar d) :=
          (List.cons.injEq _ _ _ _ ▸ ih).1
        have hts : ts = splitTail cs := (List.cons.injEq _ _ _ _ ▸ ih).2
        rw [ht, hts]

theorem wordsOf_nil : wordsOf [] = [] := rfl

theorem wordsOf_cons_ws (c : Char) (cs : List Char) (h : wsChar c = true) :
    wordsOf (c :: cs) = wordsOf cs := by
  simp [wordsOf, wordsAux, h]

/-- A non-empty in-progress token is completed by the characters up to the
next whitespace, after which scanning restarts with an empty accumulator. -/
theorem wordsAux_acc (l : List Char) : ∀ acc : List Char, acc ≠ [] →
    wordsAux l acc = (acc.reverse ++ l.takeWhile (fun d => !wsChar d)) ::
      wordsAux (l.dropWhile (fun d => !wsChar d)) [] := by
  induction l with
  | nil =>
    intro acc hacc
    simp [wordsAux, hacc]
  | cons c cs ih =>
    intro acc hacc
    cases hws : wsChar c with
    | true =>
      have h1 : (c :: cs).takeWhile (fun d => !wsChar d) = [] := by
        simp [List.takeWhile_cons, hws]
      have h2 : (c :: cs).dropWhile (fun d => !wsChar d) = c :: cs := by
        simp [List.dropWhile_cons, hws]
      rw [h1, h2]
      simp only [wordsAux, hws, if_pos rfl, List.isEmpty_eq_true]
      rw [if_neg hacc]
      simp [wordsAux, hws]
    | false =>
      have h1 : (c :: cs).takeWhile (fun d => !wsChar d) =
          c :: cs.takeWhile (fun d => !wsChar d) := by
        simp [List.takeWhile_cons, hws]
      have h2 : (c :: cs).dropWhile (fun d => !wsChar d) =
          cs.dropWhile (fun d => !wsChar d) := by
        simp [List.dropWhile_cons, hws]
      rw [h1, h2]
      have hstep : wordsAux (c :: cs) acc = wordsAux cs (c :: acc) := by
        simp [wordsAux, hws]
      rw [hstep, ih (c :: acc) (by simp)]
      simp

theorem wordsOf_cons_nonws (c : Char) (cs : List Char) (h : wsChar c = false) :
    wordsOf (c :: cs) = (c :: cs.takeWhile (fun d => !wsChar d)) ::
      wordsOf (cs.dropWhile (fun d => !wsChar d)) := by
  have hstep : wordsOf (c :: cs) = wordsAux cs [c] := by
    simp [wordsOf, wordsAux, h]
  rw [hstep, wordsAux_acc cs [c] (by simp)]
  rfl

theorem filter_splitWS_trimLeft (l : List Char) :
    (splitWS (l.dropWhile wsChar)).filter (fun t => !t.isEmpty) =
      (splitWS l).filter (fun t => !t.isEmpty) := by
  induction l with
  | nil => simp
  | cons c cs ih =>
    cases hws : wsChar c with
    | true =>
      rw [List.dropWhile_cons]
      simp only [hws, if_pos rfl, splitWS_cons_ws c cs hws, List.filter_cons]
      simpa using ih
    | false =>
      rw [List.dropWhile_cons]
      simp [hws]

theorem splitWS_append_ws_singleton (s : Char) (hs : wsChar s = true) (l : List Char) :
    splitWS (l ++ [s]) = splitWS l ++ [[]] := by
  induction l with
  | nil =>
    rw [List.nil_append, splitWS_cons_ws s [] hs]
    simp [splitWS]
  | cons c cs ih =>
    cases hws : wsChar c with
    | true =>
      rw [List.cons_append, splitWS_cons_ws c (cs ++ [s]) hws, ih,
        splitWS_cons_ws c cs hws]
      rfl
    | false =>
      rcases hsp : splitWS cs with _ | ⟨t, ts⟩
      · exact absurd hsp (splitWS_ne_nil cs)
      · have h1 : splitWS (cs ++ [s]) = t :: (ts ++ [[]]) := by
          rw [ih, hsp]; rfl
        rw [List.cons_append, splitWS_cons_nonws c (cs ++ [s]) hws t (ts ++ [[]]) h1,
          splitWS_cons_nonws c cs hws t ts hsp]
        rfl

theorem splitWS_append_ws_run (w : List Char) (hw : ∀ c ∈ w, wsChar c = true) :
    ∀ l : List Char, splitWS (l ++ w) = splitWS l ++ List.replicate w.length [] := by
  induction w with
  | nil => simp
  | cons s ws ih =>
    intro l
    have hs : wsChar s = true := hw s (by simp)
    have hws : ∀ c ∈ ws, wsChar c = true := fun c hc => hw c (by simp [hc])
    have hassoc : l ++ s :: ws = (l ++ [s]) ++ ws := by simp
    rw [hassoc, ih hws (l ++ [s]), splitWS_append_ws_singleton s hs l]
    simp [List.replicate_succ]

theorem filter_splitWS_le_eq_wordsOf (n : Nat) :
    ∀ l : List Char, l.length ≤ n →
      (splitWS l).filter (fun t => !t.isEmpty) = wordsOf l := by
  induction n with
  | zero =>
    intro l hl
    have hnil : l = [] := List.length_eq_zero.mp (Nat.le_zero.mp hl)
    subst hnil
    simp [splitWS, wordsOf_nil]
  | succ n ih =>
    intro l hl
    match l with
    | [] => simp [splitWS, wordsOf_nil]
    | c :: cs =>
      have hcs : cs.length ≤ n := by
        simp only [List.length_cons] at hl; omega
      cases hws : wsChar c with
      | true =>
        rw [splitWS_cons_ws c cs hws, wordsOf_cons_ws c cs hws, List.filter_cons]
        simpa using ih cs hcs
      | false =>
        rcases hsp : splitWS cs with _ | ⟨t, ts⟩
        · exact absurd hsp (splitWS_ne_nil cs)
        · have hdecomp := splitWS_eq_takeWhile_cons cs
          rw [hsp] at hdecomp
          have ht : t = cs.takeWhile (fun d => !wsChar d) :=
            (List.cons.injEq _ _ _ _ ▸ hdecomp).1
          have hts : ts = splitTail cs := (List.cons.injEq _ _ _ _ ▸ hdecomp).2
          rw [splitWS_cons_nonws c cs hws t ts hsp, wordsOf_cons_nonws c cs hws]
          have hfc : ((c :: t) :: ts).filter (fun x => !x.isEmpty) =
              (c :: t) :: ts.filter (fun x => !x.isEmpty) := by simp
          rw [hfc, ht, hts]
          congr 1
          unfold splitTail
          rcases hdw : cs.dropWhile (fun d => !wsChar d) with _ | ⟨d, rest⟩
          · simp [wordsOf_nil]
          · have hd : wsChar d = true := by
              have hhead := List.head_dropWhile_not (fun d => !wsChar d) cs
              rw [hdw] at hhead
              simpa using hhead
            rw [wordsOf_cons_ws d rest hd]
            have hlen : rest.length ≤ n := by
              have hsub :=
                (List.dropWhile_sublist (l := cs) (p := fun d => !wsChar d)).length_le
              rw [hdw] at hsub
              simp only [List.length_cons] at hsub
              omega
            exact ih rest hlen

theorem filter_splitWS_jsTrim (l : List Char) :
    (splitWS (jsTrim l)).filter (fun t => !t.isEmpty) = wordsOf l := by
  unfold jsTrim
  set m := l.dropWhile wsChar with hm
  have hdec : m = ((m.reverse.dropWhile wsChar).reverse : List Char) ++
      (m.reverse.takeWhile wsChar).reverse := by
    conv_lhs => rw [← List.reverse_reverse m,
      ← List.takeWhile_append_dropWhile (p := wsChar) (l := m.reverse)]
    rw [List.reverse_append]
  have hws : ∀ c ∈ (m.reverse.takeWhile wsChar).reverse, wsChar c = true := by
    intro c hc
    rw [List.mem_reverse] at hc
    exact List.mem_takeWhile_imp hc
  have hrun := splitWS_append_ws_run _ hws ((m.reverse.dropWhile wsChar).reverse)
  rw [← hdec] at hrun
  have hfil : (splitWS m).filter (fun t => !t.isEmpty) =
      (splitWS ((m.reverse.dropWhile wsChar).reverse)).filter (fun t => !t.isEmpty) := by
    rw [hrun, List.filter_append]
    simp [List.filter_replicate]
  rw [← hfil, hm, filter_splitWS_trimLeft]
  exact filter_splitWS_le_eq_wordsOf l.length l (Nat.le_refl _)

theorem takeWhile_append_of_forall {p : Char → Bool} (t r : List Char)
    (ht : ∀ c ∈ t, p c = true) : (t ++ r).takeWhile p = t ++ r.takeWhile p := by
  induction t with
  | nil => simp
  | cons c cs ih =>
    have hc : p c = true := ht c (by simp)
    have hcs : ∀ x ∈ cs, p x = true := fun x hx => ht x (by simp [hx])
    simp [List.takeWhile_cons, hc, ih hcs]

theorem dropWhile_append_of_forall {p : Char → Bool} (t r : List Char)
    (ht : ∀ c ∈ t, p c = true) : (t ++ r).dropWhile p = r.dropWhile p := by
  induction t with
  | nil => simp
  | cons c cs ih =>
    have hc : p c = true := ht c (by simp)
    have hcs : ∀ x ∈ cs, p x = true := fun x hx => ht x (by simp [hx])
    simp [List.dropWhile_cons, hc, ih hcs]

theorem wordsOf_token_append (t : List Char) (hne : t ≠ [])
    (hfree : ∀ c ∈ t, wsChar c = false) (s : Char) (hs : wsChar s = true)
    (l : List Char) : wordsOf (t ++ s :: l) = t :: wordsOf l := by
  match t, hne with
  | x :: ts, _ =>
    have hx : wsChar x = false := hfree x (by simp)
    have hts : ∀ c ∈ ts, (fun d => !wsChar d) c = true := by
      intro c hc
      simp [hfree c (by simp [hc])]
    rw [List.cons_append, wordsOf_cons_nonws x (ts ++ s :: l) hx,
      takeWhile_append_of_forall ts (s :: l) hts,
      dropWhile_append_of_forall ts (s :: l) hts]
    have h1 : (s :: l).takeWhile (fun d => !wsChar d) = [] := by
      simp [List.takeWhile_cons, hs]
    have h2 : (s :: l).dropWhile (fun d => !wsChar d) = s :: l := by
      simp [List.dropWhile_cons, hs]
    rw [h1, h2, wordsOf_cons_ws s l hs]
    simp

theorem wordsOf_token (t : List Char) (hne : t ≠ [])
    (hfree : ∀ c ∈ t, wsChar c = false) : wordsOf t = [t] := by
  match t, hne with
  | x :: ts, _ =>
    have hx : wsChar x = false := hfree x (by simp)
    have hts : ∀ c ∈ ts, (fun d => !wsChar d) c = true := by
      intro c hc
      simp [hfree c (by simp [hc])]
    rw [wordsOf_cons_nonws x ts hx,
      List.takeWhile_eq_self_iff.mpr hts, List.dropWhile_eq_nil_iff.mpr hts]
    simp [wordsOf_nil]


/-! ### Parsing helper lemmas -/

theorem parseCommand_no_space (s : String) (args : List String)
    (h : ' ' ∉ s.toList) : parseCommand s args = { command := s, args := args } := by
  unfold parseCommand
  rw [if_neg h]

theorem parseCommand_of_space (s : String) (args : List String)
    (h : ' ' ∈ s.toList) :
    parseCommand s args =
      { command := ((wordsOf s.toList).map (fun t => (⟨t⟩ : String))).headD "",
        args := ((wordsOf s.toList).map (fun t => (⟨t⟩ : String))).tail ++ args } := by
  simp only [parseCommand, if_pos h, filter_splitWS_jsTrim]

set_option maxRecDepth 8192 in
theorem ALLOWED_COMMANDS_no_space : ∀ C ∈ ALLOWED_COMMANDS, ' ' ∉ C.toList := by
  decide

/-! ### Claim theorems -/

/-- C5 (counterexample): `"echo\thello"` contains whitespace (a tab) but no
space character, so — contrary to the claim that any whitespace triggers
command-line splitting — `executeCommand` leaves it entirely unsplit: the
effective command is the whole string `"echo\thello"` and the explicit
arguments are unchanged, not command `"echo"` with argument `"hello"`. -/
theorem parseCommand_tab_not_split :
    parseCommand "echo\thello" [] = { command := "echo\thello", args := [] } ∧
    parseCommand "echo\thello" [] ≠ { command := "echo", args := ["hello"] } := by
  decide

/-- C5 (amended): splitting triggers exactly when the raw command name
contains a space character (U+0020), not on arbitrary whitespace.  When it
does not contain a space — even if it contains tabs or other whitespace — the
command and the explicit arguments are used unchanged.  When it does, the
name is trimmed and split on runs of (arbitrary) whitespace with no
quote-awareness, the first token becomes the effective command, and the
remaining tokens are prepended in order to the explicit arguments
(`wordsOf` is the independent maximal-run tokenizer). -/
theorem parseCommand_space_trigger (s : String) (args : List String) :
    (' ' ∉ s.toList → parseCommand s args = { command := s, args := args }) ∧
    (' ' ∈ s.toList → parseCommand s args =
      { command := ((wordsOf s.toList).map (fun t => (⟨t⟩ : String))).headD "",
        args := ((wordsOf s.toList).map (fun t => (⟨t⟩ : String))).tail ++ args }) :=
  ⟨fun h => parseCommand_no_space s args h, fun h => parseCommand_of_space s args h⟩

/-- C5 (witness): the splitting branch on the test input `"ls  -la   "`
(multiple spaces, trailing blanks) with explicit argument `"/tmp"`. -/
theorem parseCommand_space_trigger_witness :
    parseCommand "ls  -la   " ["/tmp"] = { command := "ls", args := ["-la", "/tmp"] } := by
  have h := (parseCommand_space_trigger "ls  -la   " ["/tmp"]).2 (by decide)
  rw [h]
  decide

/-- C6: parsing idempotence.  For whitespace-free non-empty tokens `c`, `a`,
`b`, authorizing the pre-assembled command line `"c a b"` with no explicit
arguments parses to the same invocation as authorizing `"c"` with explicit
arguments `["a", "b"]`, namely `{command := c, args := [a, b]}` (the
allowlist check is a function of this shared parse result, so `authorize`
agrees on both spellings as well). -/
theorem parseCommand_idempotent (c a b : List Char)
    (hc : c ≠ []) (ha : a ≠ []) (hb : b ≠ [])
    (hcf : ∀ x ∈ c, wsChar x = false) (haf : ∀ x ∈ a, wsChar x = false)
    (hbf : ∀ x ∈ b, wsChar x = false) :
    parseCommand ⟨c ++ (' ' :: (a ++ (' ' :: b)))⟩ [] = parseCommand ⟨c⟩ [⟨a⟩, ⟨b⟩] ∧
    parseCommand ⟨c ++ (' ' :: (a ++ (' ' :: b)))⟩ [] =
      { command := ⟨c⟩, args := [⟨a⟩, ⟨b⟩] } := by
  have hsp : ' ' ∈ (⟨c ++ (' ' :: (a ++ (' ' :: b)))⟩ : String).toList := by
    show ' ' ∈ c ++ (' ' :: (a ++ (' ' :: b)))
    simp
  have hwords : wordsOf ((⟨c ++ (' ' :: (a ++ (' ' :: b)))⟩ : String).toList) =
      [c, a, b] := by
    show wordsOf (c ++ (' ' :: (a ++ (' ' :: b)))) = [c, a, b]
    rw [wordsOf_token_append c hc hcf ' ' (by decide) (a ++ (' ' :: b)),
      wordsOf_token_append a ha haf ' ' (by decide) b,
      wordsOf_token b hb hbf]
  have hnos : ' ' ∉ (⟨c⟩ : String).toList := by
    show ' ' ∉ c
    intro hmem
    exact absurd (hcf ' ' hmem) (by decide)
  have h1 := parseCommand_of_space (⟨c ++ (' ' :: (a ++ (' ' :: b)))⟩ : String) [] hsp
  rw [hwords] at h1
  have h2 := parseCommand_no_space (⟨c⟩ : String) [⟨a⟩, ⟨b⟩] hnos
  simp only [List.map_cons, List.map_nil, List.headD_cons, List.tail_cons,
    List.append_nil] at h1
  exact ⟨h1.trans h2.symm, h1⟩

/-- C6 (witness): `parseCommand "echo hello world" [] = parseCommand "echo"
["hello", "world"]`, both yielding `{command := "echo", args := ["hello",
"world"]}`; instantiated through the general idempotence theorem. -/
theorem parseCommand_idempotent_witness :
    parseCommand ⟨"echo".toList ++ (' ' :: ("hello".toList ++ (' ' :: "world".toList)))⟩
        [] = parseCommand ⟨"echo".toList⟩ [⟨"hello".toList⟩, ⟨"world".toList⟩] ∧
    parseCommand ⟨"echo".toList ++ (' ' :: ("hello".toList ++ (' ' :: "world".toList)))⟩
        [] = { command := ⟨"echo".toList⟩, args := [⟨"hello".toList⟩, ⟨"world".toList⟩] } :=
  parseCommand_idempotent "echo".toList "hello".toList "world".toList
    (by decide) (by decide) (by decide) (by decide) (by decide) (by decide)


/-! ### Allowlist helper lemmas -/

theorem isCommandAllowed_static (C : String) (allowed : List String)
    (store : ConfigStore) (h : C ∈ allowed) :
    isCommandAllowed C allowed store = true := by
  simp [isCommandAllowed, h]

theorem isCommandAllowed_iff_of_ok (C : String) (allowed : List String)
    (store : ConfigStore) (cfg : Config) (h : readConfig store = .ok cfg) :
    isCommandAllowed C allowed store = true ↔
      C ∈ allowed ∨ C ∈ policyCommands cfg := by
  unfold isCommandAllowed
  rw [h]
  by_cases hm : C ∈ allowed
  · simp [hm]
  · simp [hm, policyCommands, List.any_eq_true, List.mem_flatten]

theorem isCommandAllowed_of_error (C : String) (allowed : List String)
    (store : ConfigStore) (e : ConfigReadError) (h : readConfig store = .error e)
    (hm : C ∉ allowed) : isCommandAllowed C allowed store = false := by
  unfold isCommandAllowed
  rw [h]
  simp [hm]

/-- C3: asymmetric degradation on policy-store failure.  A command in the
static build-time allowlist is approved with its parsed invocation
`{command, args}` unchanged for every configuration-store state, including
failing ones (the static check precedes and short-circuits the policy read).
A whitespace-free command outside the static allowlist that a loadable
policy's `allowedCommands` lists is approved when the policy loads, and is
denied with the command-not-allowed error whenever the policy read fails. -/
theorem authorize_static_vs_policy_degradation (C : String) (args : List String) :
    (C ∈ ALLOWED_COMMANDS → ∀ store : ConfigStore,
      authorize C args ALLOWED_COMMANDS store = .ok { command := C, args := args }) ∧
    (C ∉ ALLOWED_COMMANDS → ' ' ∉ C.toList →
      ∀ (store : ConfigStore) (cfg : Config), readConfig store = .ok cfg →
        C ∈ policyCommands cfg →
        authorize C args ALLOWED_COMMANDS store = .ok { command := C, args := args }) ∧
    (C ∉ ALLOWED_COMMANDS → ' ' ∉ C.toList →
      ∀ (store : ConfigStore) (e : ConfigReadError), readConfig store = .error e →
        authorize C args ALLOWED_COMMANDS store =
          .error (.invalidRequest (deniedMessage C))) := by
  refine ⟨?_, ?_, ?_⟩
  · intro hC store
    have hnos := ALLOWED_COMMANDS_no_space C hC
    unfold authorize
    rw [parseCommand_no_space C args hnos]
    simp [isCommandAllowed_static C ALLOWED_COMMANDS store hC]
  · intro _ hnos store cfg hok hpol
    unfold authorize
    rw [parseCommand_no_space C args hnos]
    have htrue : isCommandAllowed C ALLOWED_COMMANDS store = true :=
      (isCommandAllowed_iff_of_ok C ALLOWED_COMMANDS store cfg hok).mpr (Or.inr hpol)
    simp [htrue]
  · intro hC hnos store e herr
    unfold authorize
    rw [parseCommand_no_space C args hnos]
    have hfalse : isCommandAllowed C ALLOWED_COMMANDS store = false :=
      isCommandAllowed_of_error C ALLOWED_COMMANDS store e herr hC
    simp [hfalse]

set_option maxRecDepth 8192 in
/-- C3 (witness): `ls` (static) is approved even with a malformed policy
store; `mytool` (policy-only, category `custom`) is approved when the policy
loads and denied when the store is malformed. -/
theorem authorize_static_vs_policy_degradation_witness :
    authorize "ls" [] ALLOWED_COMMANDS .malformed =
      .ok { command := "ls", args := [] } ∧
    authorize "mytool" ["-v"] ALLOWED_COMMANDS
        (.content { allowedDirectories := [], allowedCommands := some [("custom", ["mytool"])] }) =
      .ok { command := "mytool", args := ["-v"] } ∧
    authorize "mytool" [] ALLOWED_COMMANDS .malformed =
      .error (.invalidRequest (deniedMessage "mytool")) := by
  refine ⟨?_, ?_, ?_⟩
  · exact (authorize_static_vs_policy_degradation "ls" []).1 (by decide) .malformed
  · exact (authorize_static_vs_policy_degradation "mytool" ["-v"]).2.1 (by decide)
      (by decide)
      (.content { allowedDirectories := [], allowedCommands := some [("custom", ["mytool"])] })
      { allowedDirectories := [], allowedCommands := some [("custom", ["mytool"])] }
      rfl (by decide)
  · exact (authorize_static_vs_policy_degradation "mytool" []).2.2 (by decide)
      (by decide) .malformed .parseFailed rfl

/-- C4: with a loaded policy, a whitespace-free command is approved with its
arguments unchanged exactly when it belongs to the union of the static
allowlist and the command names listed under any category of the policy's
`allowedCommands`; otherwise it is denied with the command-not-allowed
error. -/
theorem authorize_effective_allowlist (C : String) (args : List String)
    (allowed : List String) (store : ConfigStore) (cfg : Config)
    (hnos : ' ' ∉ C.toList) (hok : readConfig store = .ok cfg) :
    (authorize C args allowed store = .ok { command := C, args := args } ↔
      C ∈ allowed ∨ C ∈ policyCommands cfg) ∧
    (C ∉ allowed → C ∉ policyCommands cfg →
      authorize C args allowed store = .error (.invalidRequest (deniedMessage C))) := by
  have hparse := parseCommand_no_space C args hnos
  have hbool : ∀ hb : isCommandAllowed C allowed store = false,
      ¬(C ∈ allowed ∨ C ∈ policyCommands cfg) := by
    intro hb hor
    have := (isCommandAllowed_iff_of_ok C allowed store cfg hok).mpr hor
    rw [hb] at this
    cases this
  constructor
  · constructor
    · intro happ
      rcases hb : isCommandAllowed C allowed store with _ | _
      · exfalso
        unfold authorize at happ
        rw [hparse] at happ
        simp [hb] at happ
      · exact (isCommandAllowed_iff_of_ok C allowed store cfg hok).mp hb
    · intro hmem
      have htrue := (isCommandAllowed_iff_of_ok C allowed store cfg hok).mpr hmem
      unfold authorize
      rw [hparse]
      simp [htrue]
  · intro h1 h2
    rcases hb : isCommandAllowed C allowed store with _ | _
    · unfold authorize
      rw [hparse]
      simp [hb]
    · exact absurd ((isCommandAllowed_iff_of_ok C allowed store cfg hok).mp hb)
        (by tauto)

/-- C4 (witness): the spec scenario — static baseline `["ls"]`, policy
`{custom: ["grep"]}`: `grep` is approved with its arguments unchanged, `rm`
is denied with the command-not-allowed error. -/
theorem authorize_effective_allowlist_witness :
    authorize "grep" ["-r", "x"] ["ls"]
        (.content { allowedDirectories := [], allowedCommands := some [("custom", ["grep"])] }) =
      .ok { command := "grep", args := ["-r", "x"] } ∧
    authorize "rm" [] ["ls"]
        (.content { allowedDirectories := [], allowedCommands := some [("custom", ["grep"])] }) =
      .error (.invalidRequest (deniedMessage "rm")) := by
  constructor
  · exact ((authorize_effective_allowlist "grep" ["-r", "x"] ["ls"]
      (.content { allowedDirectories := [], allowedCommands := some [("custom", ["grep"])] })
      { allowedDirectories := [], allowedCommands := some [("custom", ["grep"])] }
      (by decide) rfl).1).mpr (by decide)
  · exact (authorize_effective_allowlist "rm" [] ["ls"]
      (.content { allowedDirectories := [], allowedCommands := some [("custom", ["grep"])] })
      { allowedDirectories := [], allowedCommands := some [("custom", ["grep"])] }
      (by decide) rfl).2 (by decide) (by decide)

/-- C9 (counterexample): a child process that completes with non-zero exit
code 1 and stderr output does not raise any failure: `executeCommand`
returns a normal `{output, error}` result, because `Deno.Command.output()`
resolves rather than rejects on a non-zero exit status and the code discards
the exit code.  This refutes the claim that a non-zero exit status is
surfaced as a typed execution failure (and the claimed iff). -/
theorem executeCommand_nonzero_exit_no_failure :
    executeCommand "ls" [] ["ls"] .absent false
        (defaultExecuteCommand (fun _ _ => .completed 1 "" "boom")) =
      .ok { output := "", error := "boom" } := by
  decide

/-- C9 (amended): for an allowed command, the run's outcome is exactly the
spawn outcome of the (platform-wrapped) child process: a spawn/wait failure
is surfaced, untried again, as the typed internal error whose message
preserves the underlying failure message; a process that ran to completion —
with any exit status, zero or not — yields a normal result carrying the two
captured streams.  A failure is raised if and only if the spawn itself
fails. -/
theorem executeCommand_launch_failure_surface
    (world : String → List String → ProcOutcome) (commandName : String)
    (args : List String) (allowed : List String) (store : ConfigStore)
    (onWindows : Bool)
    (hallow : isCommandAllowed (parseCommand commandName args).command allowed
      store = true) :
    executeCommand commandName args allowed store onWindows
        (defaultExecuteCommand world) =
      match world
          (if onWindows then "cmd.exe" else (parseCommand commandName args).command)
          (if onWindows then
            "/c" :: (parseCommand commandName args).command ::
              (parseCommand commandName args).args
          else (parseCommand commandName args).args) with
      | .spawnError msg => .error (.internalError ("コマンド実行エラー: " ++ msg))
      | .completed _ stdout stderr => .ok { output := stdout, error := stderr } := by
  unfold executeCommand authorize defaultExecuteCommand
  simp only [hallow, if_true]
  rcases hw : world
      (if onWindows then "cmd.exe" else (parseCommand commandName args).command)
      (if onWindows then
        "/c" :: (parseCommand commandName args).command ::
          (parseCommand commandName args).args
      else (parseCommand commandName args).args) with msg | ⟨code, out, err⟩ <;>
    simp [hw]

/-- C9 (witness): a spawn failure (binary not found) surfaces as the typed
internal error with the underlying message preserved. -/
theorem executeCommand_launch_failure_surface_witness :
    executeCommand "ls" [] ["ls"] .absent false
        (defaultExecuteCommand
          (fun _ _ => .spawnError "No such file or directory (os error 2)")) =
      .error (.internalError
        ("コマンド実行エラー: " ++ "No such file or directory (os error 2)")) :=
  (executeCommand_launch_failure_surface
    (fun _ _ => .spawnError "No such file or directory (os error 2)")
    "ls" [] ["ls"] .absent false (by decide)).trans (by decide)

/-- C10: denial is side-effect-free.  When the parsed effective command is
not in the effective allowlist, `executeCommand` returns the denial error,
and its result does not depend on the injected process-execution function at
all — the execution function is never consulted for a denied request. -/
theorem executeCommand_denial_no_execution (commandName : String)
    (args : List String) (allowed : List String) (store : ConfigStore)
    (onWindows : Bool)
    (f g : String → List String → Bool → Except String CommandExecutionResult)
    (h : isCommandAllowed (parseCommand commandName args).command allowed
      store = false) :
    executeCommand commandName args allowed store onWindows f =
      .error (.invalidRequest (deniedMessage commandName)) ∧
    executeCommand commandName args allowed store onWindows f =
      executeCommand commandName args allowed store onWindows g := by
  unfold executeCommand authorize
  simp [h]

/-- C10 (witness): the test scenario — `dangerous-command` against allowlist
`["echo"]` and an empty loaded policy is denied, and the result is identical
for two execution functions that would return visibly different outputs. -/
theorem executeCommand_denial_no_execution_witness :
    executeCommand "dangerous-command" ["test"] ["echo"]
        (.content { allowedDirectories := [], allowedCommands := some [] }) false
        (fun _ _ _ => .ok { output := "ran-f", error := "" }) =
      .error (.invalidRequest (deniedMessage "dangerous-command")) ∧
    executeCommand "dangerous-command" ["test"] ["echo"]
        (.content { allowedDirectories := [], allowedCommands := some [] }) false
        (fun _ _ _ => .ok { output := "ran-f", error := "" }) =
      executeCommand "dangerous-command" ["test"] ["echo"]
        (.content { allowedDirectories := [], allowedCommands := some [] }) false
        (fun _ _ _ => .ok { output := "ran-g", error := "" }) :=
  executeCommand_denial_no_execution "dangerous-command" ["test"] ["echo"]
    (.content { allowedDirectories := [], allowedCommands := some [] }) false
    (fun _ _ _ => .ok { output := "ran-f", error := "" })
    (fun _ _ _ => .ok { output := "ran-g", error := "" })
    (by decide)


/-- C7: the path check is fail-closed on policy-load failure.  Whenever
loading the configuration fails (store unreadable or malformed, as opposed to
merely missing), `validatePath` aborts with the distinct policy-unavailable
failure — it never proceeds to the path checks and never approves a path. -/
theorem validatePath_fail_closed_on_config_error (w : FsWorld)
    (store : ConfigStore) (requestedPath : String) (e : ConfigReadError)
    (h : readConfig store = .error e) :
    validatePath w store requestedPath = .error .configReadFailed := by
  unfold validatePath
  rw [h]

/-- C7 (witness): a malformed policy store makes the check of
`"/data/x.txt"` abort with the policy-unavailable failure. -/
theorem validatePath_fail_closed_on_config_error_witness :
    validatePath { cwd := "/", realPath := fun _ => none } .malformed
      "/data/x.txt" = .error .configReadFailed :=
  validatePath_fail_closed_on_config_error
    { cwd := "/", realPath := fun _ => none } .malformed "/data/x.txt"
    .parseFailed rfl

/-- C8: the policy load distinguishes missing from malformed.  A missing
backing file yields the empty default policy (no allowed directories, no
`allowedCommands` entry) rather than an error; a malformed file surfaces a
parse failure, distinct from the missing case.  Under the missing-file
policy the effective command allowlist reduces to exactly the static
baseline, and every path request is denied as outside the (empty) allowed
roots. -/
theorem readConfig_missing_vs_malformed :
    readConfig .absent =
      .ok { allowedDirectories := [], allowedCommands := none,
            llmEnabled := none } ∧
    readConfig .malformed = .error .parseFailed ∧
    (∀ (C : String) (allowed : List String),
      isCommandAllowed C allowed .absent = decide (C ∈ allowed)) ∧
    (∀ (w : FsWorld) (p : String),
      validatePath w .absent p =
        .error (.outsideAllowedRoot (absoluteOf w p) [])) := by
  refine ⟨rfl, rfl, ?_, ?_⟩
  · intro C allowed
    unfold isCommandAllowed
    by_cases hm : C ∈ allowed
    · simp [hm, readConfig]
    · simp [hm, readConfig]
  · intro w p
    unfold validatePath
    simp [readConfig, insideAllowedDirs]

/-- C1 (code bug): a symlink escape is approved.  With allowed root `/data`,
the existing path `/data/link` whose real (symlink-resolved) path is
`/etc/passwd` — outside every allowed directory — is approved and returned
by `validatePath`, because the symlink-escape denial thrown inside the `try`
block (mcp-cmdex.ts lines 78–82) is caught by that very block's `catch`
(line 84), which then approves through the parent-directory fallback: the
parent `/data` resolves to itself and is inside the root.  The second
conjunct records that the canonicalized form of the approved path lies
outside every allowed directory, violating the claimed invariant. -/
theorem validatePath_symlink_escape_approved :
    validatePath
      { cwd := "/",
        realPath := fun p =>
          if p = "/data/link" then some "/etc/passwd"
          else if p = "/data" then some "/data" else none }
      (.content { allowedDirectories := ["/data"] }) "/data/link" =
      .ok "/data/link" ∧
    insideAllowedDirs ["/data"] (normalizePath "/etc/passwd") = false := by
  decide

/-- C2 (counterexample): with `/a/b` as the only allowed root, the request
`/a/bc` — whose string merely extends the root without a path separator — is
not denied as outside the allowed root: the lexical check is a plain
`startsWith`, so `/a/bc` passes it and, resolving to itself, is approved. -/
theorem validatePath_prefix_boundary_counterexample :
    validatePath
      { cwd := "/",
        realPath := fun p => if p = "/a/bc" then some "/a/bc" else none }
      (.content { allowedDirectories := ["/a/b"] }) "/a/bc" = .ok "/a/bc" := by
  decide

/-- C2 (amended): the lexical allowed-root check of `validatePath` is a
plain string-prefix test on the normalized absolute path, with no
component-boundary alignment: the outside-allowed-root denial is produced
exactly when no allowed directory is a string prefix of the normalized
absolute request — so a root `/a/b` does match `/a/bc`, and such requests
pass the lexical check. -/
theorem validatePath_outsideAllowedRoot_iff (w : FsWorld) (store : ConfigStore)
    (cfg : Config) (p : String) (h : readConfig store = .ok cfg) :
    validatePath w store p =
        .error (.outsideAllowedRoot (absoluteOf w p) cfg.allowedDirectories) ↔
      insideAllowedDirs cfg.allowedDirectories (normalizePath (absoluteOf w p)) =
        false := by
  unfold validatePath
  rw [h]
  by_cases hin : insideAllowedDirs cfg.allowedDirectories
      (normalizePath (absoluteOf w p)) = false
  · simp [hin]
  · have htrue : insideAllowedDirs cfg.allowedDirectories
        (normalizePath (absoluteOf w p)) = true := by
      revert hin
      cases insideAllowedDirs cfg.allowedDirectories
        (normalizePath (absoluteOf w p)) <;> simp
    rw [htrue]
    simp only [Bool.not_true, Bool.false_eq_true, if_false, htrue]
    constructor
    · intro hcontr
      exfalso
      revert hcontr
      split
      · simp
      · split
        · simp
        · simp
    · intro hfalse
      exact absurd hfalse (by simp [htrue])

/-- C2 (amended, witness): the iff instantiated at the request `/etc/x`
against allowed root `/a/b`. -/
theorem validatePath_outsideAllowedRoot_iff_witness :
    (validatePath { cwd := "/", realPath := fun _ => none }
        (.content { allowedDirectories := ["/a/b"] }) "/etc/x" =
        .error (.outsideAllowedRoot
          (absoluteOf { cwd := "/", realPath := fun _ => none } "/etc/x")
          ["/a/b"]) ↔
      insideAllowedDirs ["/a/b"]
        (normalizePath
          (absoluteOf { cwd := "/", realPath := fun _ => none } "/etc/x")) =
        false) :=
  validatePath_outsideAllowedRoot_iff { cwd := "/", realPath := fun _ => none }
    (.content { allowedDirectories := ["/a/b"] }) { allowedDirectories := ["/a/b"] }
    "/etc/x" rfl

end Cmdex
